import Mathlib

/-!
Shallow embedding of `src/cargo/core/package_id.rs`: the package-identity
and build-fingerprint core (PackageId, its codec, ordering, hashing,
display, and the Metadata fingerprint generator).

External collaborators (`semver`, `SourceId`, `short_hash`) are not part of
the staged source; they are modelled from the spec at their interface
boundary, as marked on each definition.
-/

namespace Cargo

/-! ## Decimal digits: printing and parsing of natural numbers -/

/-- The ASCII digit character for `n < 10`. -/
def digitChar (n : Nat) : Char := Char.ofNat (48 + n)

/-- Numeric value of an ASCII digit character. -/
def digitVal (c : Char) : Nat := c.toNat - 48

/-- Little-endian decimal digits, structurally recursive on a fuel bound so
that concrete instances reduce in the kernel. -/
def natDigitsRevFuel : Nat → Nat → List Char
  | 0, _ => []
  | fuel + 1, n =>
    if n < 10 then [digitChar n]
    else digitChar (n % 10) :: natDigitsRevFuel fuel (n / 10)

/-- Little-endian decimal digits of `n` (least significant first). -/
def natDigitsRev (n : Nat) : List Char := natDigitsRevFuel (n + 1) n

/-- Canonical decimal rendering of `n`, most significant digit first. -/
def natChars (n : Nat) : List Char := (natDigitsRev n).reverse

/-- Value of a big-endian digit string. -/
def charsVal (cs : List Char) : Nat := cs.foldl (fun a c => a * 10 + digitVal c) 0

/-- Parse a non-empty all-digit character list as a natural number. -/
def parseNatChars (cs : List Char) : Option Nat :=
  if cs.isEmpty then none
  else if cs.all Char.isDigit then some (charsVal cs)
  else none

/-! ## Semantic versions -/

/-- Modelled from the spec (§1, §6): the external Semantic Version
collaborator, "given a version string, produces a totally-ordered,
comparable version value, or fails", with a canonical `to_string()`.
Modelled over the numeric `major.minor.patch` core of semantic versioning. -/
structure Version where
  major : Nat
  minor : Nat
  patch : Nat
deriving DecidableEq, Repr

/-- Canonical character rendering `major.minor.patch`. -/
def Version.chars (v : Version) : List Char :=
  natChars v.major ++ ('.' :: (natChars v.minor ++ ('.' :: natChars v.patch)))

/-- Canonical string form of a version (`Version::to_string`). -/
def Version.str (v : Version) : String := String.mk v.chars

/-- Split a character list at every `'.'`. -/
def splitDot : List Char → List (List Char)
  | [] => [[]]
  | c :: cs =>
    if c = '.' then [] :: splitDot cs
    else
      match splitDot cs with
      | [] => [[c]]
      | t :: ts => (c :: t) :: ts

/-- Modelled from the spec (§6): `parse(string) -> Version | Error` over
character lists: exactly three dot-separated non-empty numeric components. -/
def Version.parseChars (cs : List Char) : Option Version :=
  match splitDot cs with
  | [a, b, c] =>
    match parseNatChars a, parseNatChars b, parseNatChars c with
    | some ma, some mi, some pa => some ⟨ma, mi, pa⟩
    | _, _, _ => none
  | _ => none

/-- Modelled from the spec (§6): semantic-version parsing of a string. -/
def Version.parse (s : String) : Option Version := Version.parseChars s.data

/-! ## Source origins -/

/-- Modelled from the spec (§6): the Source Origin collaborator, reduced to
its interface: a canonical, injective URL form `to_url`, constructible by
`from_url`, totally ordered and hashable, with a display string. -/
structure SourceId where
  url : String
deriving DecidableEq, Repr

/-- Modelled from the spec (§6): `from_url(string) -> SourceOrigin`. -/
def SourceId.from_url (s : String) : SourceId := ⟨s⟩

/-- Modelled from the spec (§6): `to_url() -> string`, canonical and injective. -/
def SourceId.to_url (s : SourceId) : String := s.url

/-- Modelled from the spec (§6): `to_display_string()`, the `Show` form of a
source, here its canonical URL. -/
def SourceId.showStr (s : SourceId) : String := s.url

/-! ## The short hash (`util::short_hash`) -/

/-- One FNV-1a step over a 32-bit accumulator. -/
def hashStep (h b : Nat) : Nat := ((h ^^^ b) * 16777619) % 4294967296

/-- Fold a character list into the accumulator. -/
def hashChars (h : Nat) (cs : List Char) : Nat :=
  cs.foldl (fun a c => hashStep a c.toNat) h

/-- Modelled from the spec (§4.3): `short_hash`, "any stable,
collision-resistant hash function (output encoded as a short fixed-length
alphanumeric token)". Here: FNV-1a over the fields, each terminated by an
out-of-band separator, rendered as eight hex digits. -/
def hashFields (fields : List String) : Nat :=
  fields.foldl (fun h s => hashStep (hashChars h s.data) 256) 2166136261

/-- Hex digit character for `n < 16`. -/
def hexChar (n : Nat) : Char := if n < 10 then Char.ofNat (48 + n) else Char.ofNat (87 + n)

/-- `k` hex digits of `n`, most significant first. -/
def toHex : Nat → Nat → List Char
  | 0, _ => []
  | k + 1, n => toHex k (n / 16) ++ [hexChar (n % 16)]

/-- Modelled from the spec (§4.3): the short deterministic digest token. -/
def short_hash (fields : List String) : String := String.mk (toHex 8 (hashFields fields))

/-! ## PackageId -/

/-- `PackageIdInner`: the `(name, version, source_id)` triple. The `Arc`
sharing wrapper of `PackageId` is transparent to the value semantics
(equality, ordering, hashing all delegate to the inner triple), so the
embedding collapses the two. -/
structure PackageId where
  name : String
  version : Version
  source_id : SourceId
deriving DecidableEq, Repr

/-- The `PackageIdError` enum. -/
inductive PackageIdError where
  | InvalidVersion : String → PackageIdError
  | InvalidNamespace : String → PackageIdError
deriving DecidableEq, Repr

/-- `CargoError::description` for `PackageIdError`. -/
def PackageIdError.description : PackageIdError → String
  | .InvalidVersion v => "invalid version: " ++ v
  | .InvalidNamespace ns => "invalid namespace: " ++ ns

/-- `CargoError::is_human` for `PackageIdError`: always `true`. -/
def PackageIdError.is_human (_ : PackageIdError) : Bool := true

/-- `PackageId::new`: parse the raw version (the `ToSemver` collaborator),
wrapping a parse failure in `InvalidVersion`; no validation on `name`. -/
def PackageId.new (name : String) (version : String) (sid : SourceId) :
    Except PackageIdError PackageId :=
  match Version.parse version with
  | some v => .ok ⟨name, v, sid⟩
  | none => .error (.InvalidVersion version)

/-! ## Canonical codec -/

/-- `Encodable for PackageId`: `format!("{} {} ({})", name, version, to_url)`. -/
def encodeChars (p : PackageId) : List Char :=
  p.name.data ++
    (' ' :: (p.version.chars ++ (' ' :: ('(' :: (p.source_id.to_url.data ++ [')'])))))

/-- The canonical single-line string of an identity. -/
def encode (p : PackageId) : String := String.mk (encodeChars p)

/-- One `([^ ]+) ` step of the decoder's pattern: a non-empty run of
non-space characters followed by one literal space; returns the token and
the remainder after the space. -/
def splitToken (cs : List Char) : Option (List Char × List Char) :=
  let g := cs.takeWhile (fun c => c != ' ')
  match cs.dropWhile (fun c => c != ' ') with
  | ' ' :: rest => if g.isEmpty then none else some (g, rest)
  | _ => none

/-- The `\(([^\)]+)\)$` tail of the decoder's pattern: a literal `'('`, a
non-empty `)`-free group, and a literal `')'` ending the string. -/
def parseParen (cs : List Char) : Option (List Char) :=
  match cs with
  | '(' :: r3 =>
    match r3.getLast? with
    | some ')' =>
      let mid := r3.dropLast
      if mid.isEmpty then none
      else if mid.all (fun c => c != ')') then some mid else none
    | _ => none
  | _ => none

/-- The anchored pattern `^([^ ]+) ([^ ]+) \(([^\)]+)\)$` of the decoder:
a non-empty spaceless name token, one space, a non-empty spaceless version
token, one space, and a parenthesized non-empty `)`-free remainder running
to the end of the string. -/
def matchCanonical (cs : List Char) : Option (List Char × List Char × List Char) :=
  match splitToken cs with
  | none => none
  | some (g1, r1) =>
    match splitToken r1 with
    | none => none
    | some (g2, r2) =>
      match parseParen r2 with
      | none => none
      | some mid => some (g1, g2, mid)

/-- Result of `Decodable for PackageId`: the code aborts via
`.expect("invalid serialized PackageId")` when the pattern does not match
and via `.expect("invalid version")` when the version token does not parse;
the embedding makes those aborts explicit `panic` outcomes. -/
inductive DecodeResult where
  | ok : PackageId → DecodeResult
  | panic : String → DecodeResult
deriving DecidableEq, Repr

/-- `Decodable for PackageId` on the decoded string. -/
def decode (s : String) : DecodeResult :=
  match matchCanonical s.data with
  | none => .panic "invalid serialized PackageId"
  | some (n, v, o) =>
    match Version.parseChars v with
    | none => .panic "invalid version"
    | some ver => .ok ⟨String.mk n, ver, SourceId.from_url (String.mk o)⟩

/-! ## Hashing of PackageId -/

/-- `Hash for PackageId`: feed `name`, `version.to_string()` and the source
into one hasher state. -/
def PackageId.hash (p : PackageId) : Nat :=
  hashFields [p.name, p.version.str, p.source_id.url]

/-! ## Ordering -/

/-- Three-way comparison of naturals. -/
def cmpNat (a b : Nat) : Ordering :=
  if a < b then .lt else if b < a then .gt else .eq

/-- Lexicographic three-way comparison of character lists (scalar-value
order, which agrees with Rust's byte order on strings). -/
def cmpChars : List Char → List Char → Ordering
  | [], [] => .eq
  | [], _ :: _ => .lt
  | _ :: _, [] => .gt
  | a :: as, b :: bs => (cmpNat a.toNat b.toNat).then (cmpChars as bs)

/-- Three-way comparison of strings (Rust `Ord for String`). -/
def cmpStr (a b : String) : Ordering := cmpChars a.data b.data

/-- `Ord for semver::Version` on the numeric core: lexicographic by
`(major, minor, patch)`. -/
def Version.cmp (a b : Version) : Ordering :=
  (cmpNat a.major b.major).then ((cmpNat a.minor b.minor).then (cmpNat a.patch b.patch))

/-- Modelled from the spec (§6): the Source Origin's own total order, here
the order of its canonical URL. -/
def SourceId.cmp (a b : SourceId) : Ordering := cmpStr a.url b.url

/-- `Ord for PackageId`, delegating to the derived lexicographic order on
`PackageIdInner` in field declaration order `(name, version, source_id)`. -/
def PackageId.cmp (a b : PackageId) : Ordering :=
  (cmpStr a.name b.name).then
    ((Version.cmp a.version b.version).then (SourceId.cmp a.source_id b.source_id))

/-! ## Display -/

/-- The `CENTRAL_REPO` constant. -/
def CENTRAL_REPO : String := "http://rust-lang.org/central-repo"

/-- `Show for PackageId`: `"<name> v<version>"`, with `" (<source>)"`
appended when the source's display string is not `CENTRAL_REPO`. -/
def PackageId.show (p : PackageId) : String :=
  let base := p.name ++ " v" ++ p.version.str
  if p.source_id.showStr != CENTRAL_REPO then base ++ " (" ++ p.source_id.showStr ++ ")"
  else base

/-! ## Metadata fingerprints -/

/-- The `Metadata` struct: the digest and the filename suffix. -/
structure Metadata where
  metadata : String
  extra_filename : String
deriving DecidableEq, Repr

/-- `PackageId::generate_metadata`: short hash of
`(name, version.to_string(), source_id)`, suffix `"-" ++ digest`. -/
def PackageId.generate_metadata (p : PackageId) : Metadata :=
  let metadata := short_hash [p.name, p.version.str, p.source_id.url]
  { metadata := metadata, extra_filename := "-" ++ metadata }

/-- `Metadata::mix`: rehash `(previous_digest, extra)` and replace both
fields. -/
def Metadata.mix (m : Metadata) (t : String) : Metadata :=
  let new_metadata := short_hash [m.metadata, t]
  { metadata := new_metadata, extra_filename := "-" ++ new_metadata }

/-! ## Lemmas: decimal printing inverts decimal parsing -/

theorem natDigitsRevFuel_eq_of_lt :
    ∀ fuel fuel' n : Nat, n < fuel → n < fuel' →
      natDigitsRevFuel fuel n = natDigitsRevFuel fuel' n := by
  intro fuel
  induction fuel with
  | zero => omega
  | succ f ih =>
    intro fuel' n h h'
    cases fuel' with
    | zero => omega
    | succ f' =>
      rw [natDigitsRevFuel, natDigitsRevFuel]
      split
      · rfl
      · rename_i h10
        have hdiv : n / 10 < n := Nat.div_lt_self (by omega) (by omega)
        rw [ih f' (n / 10) (by omega) (by omega)]

/-- The defining recurrence of `natDigitsRev`, free of the fuel bound. -/
theorem natDigitsRev_eq (n : Nat) :
    natDigitsRev n =
      if n < 10 then [digitChar n]
      else digitChar (n % 10) :: natDigitsRev (n / 10) := by
  unfold natDigitsRev
  rw [natDigitsRevFuel]
  split
  · rfl
  · rename_i h10
    have hdiv : n / 10 < n := Nat.div_lt_self (by omega) (by omega)
    rw [natDigitsRevFuel_eq_of_lt n (n / 10 + 1) (n / 10) (by omega) (by omega)]

theorem digitChar_isDigit {d : Nat} (hd : d < 10) : (digitChar d).isDigit = true := by
  interval_cases d <;> decide

theorem digitVal_digitChar {d : Nat} (hd : d < 10) : digitVal (digitChar d) = d := by
  interval_cases d <;> decide

theorem natDigitsRev_ne_nil (n : Nat) : natDigitsRev n ≠ [] := by
  rw [natDigitsRev_eq]
  split <;> simp

theorem natDigitsRev_all_digit (n : Nat) : ∀ c ∈ natDigitsRev n, c.isDigit = true := by
  induction n using Nat.strong_induction_on with
  | _ n ih =>
    rw [natDigitsRev_eq]
    split
    · intro c hc
      simp only [List.mem_singleton] at hc
      subst hc
      exact digitChar_isDigit (by omega)
    · intro c hc
      rename_i h
      simp only [List.mem_cons] at hc
      rcases hc with hc | hc
      · subst hc
        exact digitChar_isDigit (Nat.mod_lt _ (by omega))
      · exact ih (n / 10) (Nat.div_lt_self (by omega) (by omega)) c hc

theorem natChars_ne_nil (n : Nat) : natChars n ≠ [] := by
  unfold natChars
  simp [natDigitsRev_ne_nil]

theorem natChars_all_digit (n : Nat) : ∀ c ∈ natChars n, c.isDigit = true := by
  unfold natChars
  intro c hc
  exact natDigitsRev_all_digit n c (List.mem_reverse.mp hc)

theorem charsVal_concat (xs : List Char) (c : Char) :
    charsVal (xs ++ [c]) = charsVal xs * 10 + digitVal c := by
  simp [charsVal, List.foldl_append]

theorem charsVal_natChars (n : Nat) : charsVal (natChars n) = n := by
  induction n using Nat.strong_induction_on with
  | _ n ih =>
    unfold natChars
    rw [natDigitsRev_eq]
    split
    · rename_i h
      simp [charsVal, digitVal_digitChar h]
    · rename_i h
      rw [List.reverse_cons, charsVal_concat]
      have hrec : charsVal (natChars (n / 10)) = n / 10 :=
        ih (n / 10) (Nat.div_lt_self (by omega) (by omega))
      unfold natChars at hrec
      rw [hrec, digitVal_digitChar (Nat.mod_lt _ (by omega))]
      omega

theorem parseNatChars_natChars (n : Nat) : parseNatChars (natChars n) = some n := by
  unfold parseNatChars
  rw [if_neg, if_pos, charsVal_natChars]
  · exact List.all_eq_true.mpr fun c hc => natChars_all_digit n c hc
  · simpa [List.isEmpty_iff] using natChars_ne_nil n

theorem isDigit_ne_dot {c : Char} (h : c.isDigit = true) : c ≠ '.' := by
  intro he
  subst he
  exact absurd h (by decide)

theorem isDigit_ne_space {c : Char} (h : c.isDigit = true) : c ≠ ' ' := by
  intro he
  subst he
  exact absurd h (by decide)

/-! ## Lemmas: splitting on dots -/

theorem splitDot_of_no_dot (xs : List Char) (h : ∀ c ∈ xs, c ≠ '.') :
    splitDot xs = [xs] := by
  induction xs with
  | nil => rfl
  | cons c cs ih =>
    have hc : ¬ c = '.' := h c (by simp)
    rw [splitDot, if_neg hc, ih fun x hx => h x (List.mem_cons_of_mem _ hx)]

theorem splitDot_append_dot (xs ys : List Char) (h : ∀ c ∈ xs, c ≠ '.') :
    splitDot (xs ++ '.' :: ys) = xs :: splitDot ys := by
  induction xs with
  | nil => simp [splitDot]
  | cons c cs ih =>
    have hc : ¬ c = '.' := h c (by simp)
    rw [List.cons_append, splitDot, if_neg hc,
      ih fun x hx => h x (List.mem_cons_of_mem _ hx)]

theorem version_chars_digit_or_dot (v : Version) :
    ∀ c ∈ v.chars, c.isDigit = true ∨ c = '.' := by
  intro c hc
  unfold Version.chars at hc
  simp only [List.mem_append, List.mem_cons] at hc
  rcases hc with hc | hc | hc | hc | hc
  · exact Or.inl (natChars_all_digit _ c hc)
  · exact Or.inr hc
  · exact Or.inl (natChars_all_digit _ c hc)
  · exact Or.inr hc
  · exact Or.inl (natChars_all_digit _ c hc)

theorem version_chars_ne_space (v : Version) : ∀ c ∈ v.chars, c ≠ ' ' := by
  intro c hc
  rcases version_chars_digit_or_dot v c hc with h | h
  · exact isDigit_ne_space h
  · subst h
    decide

theorem parseChars_version_chars (v : Version) :
    Version.parseChars v.chars = some v := by
  unfold Version.parseChars Version.chars
  have hmaj : ∀ c ∈ natChars v.major, c ≠ '.' :=
    fun c hc => isDigit_ne_dot (natChars_all_digit _ c hc)
  have hmin : ∀ c ∈ natChars v.minor, c ≠ '.' :=
    fun c hc => isDigit_ne_dot (natChars_all_digit _ c hc)
  have hpat : ∀ c ∈ natChars v.patch, c ≠ '.' :=
    fun c hc => isDigit_ne_dot (natChars_all_digit _ c hc)
  rw [splitDot_append_dot _ _ hmaj, splitDot_append_dot _ _ hmin,
    splitDot_of_no_dot _ hpat]
  simp [parseNatChars_natChars]

/-! ## Lemmas: the canonical pattern on an encoded identity -/

theorem takeWhile_append_cons {p : Char → Bool} (xs : List Char) (y : Char)
    (ys : List Char) (hxs : ∀ x ∈ xs, p x = true) (hy : p y = false) :
    (xs ++ y :: ys).takeWhile p = xs := by
  induction xs with
  | nil => simp [List.takeWhile_cons, hy]
  | cons a as ih =>
    rw [List.cons_append, List.takeWhile_cons, hxs a (by simp),
      ih fun x hx => hxs x (List.mem_cons_of_mem _ hx)]
    simp

theorem dropWhile_append_cons {p : Char → Bool} (xs : List Char) (y : Char)
    (ys : List Char) (hxs : ∀ x ∈ xs, p x = true) (hy : p y = false) :
    (xs ++ y :: ys).dropWhile p = y :: ys := by
  induction xs with
  | nil => simp [List.dropWhile_cons, hy]
  | cons a as ih =>
    rw [List.cons_append, List.dropWhile_cons, hxs a (by simp)]
    exact ih fun x hx => hxs x (List.mem_cons_of_mem _ hx)

theorem string_mk_data (s : String) : String.mk s.data = s := rfl

theorem splitToken_append (xs ys : List Char) (hx : xs ≠ [])
    (hxs : ∀ x ∈ xs, x ≠ ' ') : splitToken (xs ++ ' ' :: ys) = some (xs, ys) := by
  unfold splitToken
  rw [takeWhile_append_cons _ _ _ (fun x hxm => by simpa using hxs x hxm) (by decide),
    dropWhile_append_cons _ _ _ (fun x hxm => by simpa using hxs x hxm) (by decide)]
  simp [List.isEmpty_iff, hx]

theorem parseParen_wrap (mid : List Char) (h : mid ≠ [])
    (hm : ∀ c ∈ mid, c ≠ ')') : parseParen ('(' :: (mid ++ [')'])) = some mid := by
  unfold parseParen
  simp only [List.getLast?_concat, List.dropLast_concat]
  rw [if_neg, if_pos]
  · exact List.all_eq_true.mpr fun c hc => by simpa using hm c hc
  · simpa [List.isEmpty_iff] using h

theorem matchCanonical_encodeChars (p : PackageId)
    (hn : p.name.data ≠ []) (hns : ∀ c ∈ p.name.data, c ≠ ' ')
    (hu : p.source_id.url.data ≠ []) (hup : ∀ c ∈ p.source_id.url.data, c ≠ ')') :
    matchCanonical (encodeChars p) =
      some (p.name.data, p.version.chars, p.source_id.url.data) := by
  have hv : p.version.chars ≠ [] := by
    unfold Version.chars
    simp [natChars_ne_nil]
  unfold matchCanonical encodeChars
  rw [splitToken_append _ _ hn hns]
  simp only [splitToken_append _ _ hv (version_chars_ne_space p.version),
    parseParen_wrap _ hu hup, SourceId.to_url]

theorem version_parse_str (v : Version) : Version.parse v.str = some v := by
  unfold Version.parse Version.str
  exact parseChars_version_chars v

theorem decode_encode_aux (p : PackageId)
    (hn : p.name.data ≠ []) (hns : ∀ c ∈ p.name.data, c ≠ ' ')
    (hu : p.source_id.url.data ≠ []) (hup : ∀ c ∈ p.source_id.url.data, c ≠ ')') :
    decode (encode p) = .ok p := by
  unfold decode encode
  rw [string_mk_data (String.mk (encodeChars p))]
  show (match matchCanonical (encodeChars p) with
    | none => DecodeResult.panic "invalid serialized PackageId"
    | some (n, v, o) =>
      match Version.parseChars v with
      | none => DecodeResult.panic "invalid version"
      | some ver => .ok ⟨String.mk n, ver, SourceId.from_url (String.mk o)⟩) = .ok p
  rw [matchCanonical_encodeChars p hn hns hu hup]
  simp only [parseChars_version_chars]
  show DecodeResult.ok
      ⟨String.mk p.name.data, p.version, SourceId.from_url (String.mk p.source_id.url.data)⟩ =
    DecodeResult.ok p
  rw [string_mk_data, string_mk_data]
  rfl

/-! ## Lemmas: three-way comparisons -/

theorem then_eq_lt {x y : Ordering} :
    x.then y = .lt ↔ x = .lt ∨ (x = .eq ∧ y = .lt) := by
  cases x <;> simp [Ordering.then]

theorem then_eq_eq {x y : Ordering} :
    x.then y = .eq ↔ x = .eq ∧ y = .eq := by
  cases x <;> simp [Ordering.then]

theorem then_swap (x y : Ordering) : (x.then y).swap = x.swap.then y.swap := by
  cases x <;> rfl

theorem cmpNat_eq_iff {a b : Nat} : cmpNat a b = .eq ↔ a = b := by
  unfold cmpNat
  split_ifs <;> simp <;> omega

theorem cmpNat_lt_iff {a b : Nat} : cmpNat a b = .lt ↔ a < b := by
  unfold cmpNat
  split_ifs <;> simp <;> omega

theorem cmpNat_gt_iff {a b : Nat} : cmpNat a b = .gt ↔ b < a := by
  unfold cmpNat
  split_ifs <;> simp <;> omega

theorem cmpNat_swap (a b : Nat) : (cmpNat a b).swap = cmpNat b a := by
  unfold cmpNat
  split_ifs <;> first
  | rfl
  | (exfalso; omega)

theorem char_toNat_inj {a b : Char} : a.toNat = b.toNat ↔ a = b := by
  constructor
  · intro h
    rw [← Char.ofNat_toNat a, h, Char.ofNat_toNat]
  · intro h
    rw [h]

theorem cmpChars_eq_iff : ∀ x y : List Char, cmpChars x y = .eq ↔ x = y := by
  intro x
  induction x with
  | nil => intro y; cases y <;> simp [cmpChars]
  | cons a as ih =>
    intro y
    cases y with
    | nil => simp [cmpChars]
    | cons b bs =>
      simp [cmpChars, then_eq_eq, cmpNat_eq_iff, char_toNat_inj, ih bs]

theorem cmpChars_swap : ∀ x y : List Char, (cmpChars x y).swap = cmpChars y x := by
  intro x
  induction x with
  | nil => intro y; cases y <;> rfl
  | cons a as ih =>
    intro y
    cases y with
    | nil => rfl
    | cons b bs => rw [cmpChars, cmpChars, then_swap, cmpNat_swap, ih bs]

theorem cmpChars_trans :
    ∀ x y z : List Char, cmpChars x y = .lt → cmpChars y z = .lt →
      cmpChars x z = .lt := by
  intro x
  induction x with
  | nil =>
    intro y z hxy hyz
    cases y with
    | nil => exact hyz
    | cons b bs =>
      cases z with
      | nil => exact absurd hyz (by simp [cmpChars])
      | cons c cs => simp [cmpChars]
  | cons a as ih =>
    intro y z hxy hyz
    cases y with
    | nil => exact absurd hxy (by simp [cmpChars])
    | cons b bs =>
      cases z with
      | nil => exact absurd hyz (by simp [cmpChars])
      | cons c cs =>
        rw [cmpChars, then_eq_lt] at hxy hyz ⊢
        rcases hxy with h1 | ⟨h1, h1'⟩ <;> rcases hyz with h2 | ⟨h2, h2'⟩
        · rw [cmpNat_lt_iff] at h1 h2
          exact Or.inl (cmpNat_lt_iff.mpr (h1.trans h2))
        · rw [cmpNat_eq_iff] at h2
          exact Or.inl (by rw [← h2]; exact h1)
        · rw [cmpNat_eq_iff] at h1
          exact Or.inl (by rwa [h1])
        · rw [cmpNat_eq_iff] at h1 h2
          exact Or.inr ⟨cmpNat_eq_iff.mpr (h1.trans h2), ih bs cs h1' h2'⟩

theorem string_data_inj {a b : String} : a.data = b.data ↔ a = b := by
  constructor
  · intro h
    cases a
    cases b
    exact congrArg String.mk h
  · intro h
    rw [h]

theorem cmpStr_eq_iff {a b : String} : cmpStr a b = .eq ↔ a = b := by
  rw [cmpStr, cmpChars_eq_iff, string_data_inj]

theorem cmpStr_swap (a b : String) : (cmpStr a b).swap = cmpStr b a :=
  cmpChars_swap a.data b.data

theorem cmpStr_trans {a b c : String} (h1 : cmpStr a b = .lt)
    (h2 : cmpStr b c = .lt) : cmpStr a c = .lt :=
  cmpChars_trans a.data b.data c.data h1 h2

theorem vcmp_eq_iff {a b : Version} : Version.cmp a b = .eq ↔ a = b := by
  cases a
  cases b
  simp [Version.cmp, then_eq_eq, cmpNat_eq_iff, Version.mk.injEq]

theorem vcmp_swap (a b : Version) : (Version.cmp a b).swap = Version.cmp b a := by
  simp [Version.cmp, then_swap, cmpNat_swap]

theorem vcmp_lt_iff {a b : Version} :
    Version.cmp a b = .lt ↔
      (a.major < b.major ∨ (a.major = b.major ∧
        (a.minor < b.minor ∨ (a.minor = b.minor ∧ a.patch < b.patch)))) := by
  simp [Version.cmp, then_eq_lt, then_eq_eq, cmpNat_lt_iff, cmpNat_eq_iff]

theorem vcmp_trans {a b c : Version} (h1 : Version.cmp a b = .lt)
    (h2 : Version.cmp b c = .lt) : Version.cmp a c = .lt := by
  rw [vcmp_lt_iff] at h1 h2 ⊢
  omega

theorem sidcmp_eq_iff {a b : SourceId} : SourceId.cmp a b = .eq ↔ a = b := by
  cases a
  cases b
  simp [SourceId.cmp, cmpStr_eq_iff, SourceId.mk.injEq]

theorem sidcmp_swap (a b : SourceId) : (SourceId.cmp a b).swap = SourceId.cmp b a :=
  cmpStr_swap a.url b.url

theorem sidcmp_trans {a b c : SourceId} (h1 : SourceId.cmp a b = .lt)
    (h2 : SourceId.cmp b c = .lt) : SourceId.cmp a c = .lt :=
  cmpStr_trans h1 h2

theorem pidcmp_eq_iff {a b : PackageId} : PackageId.cmp a b = .eq ↔ a = b := by
  cases a
  cases b
  simp [PackageId.cmp, then_eq_eq, cmpStr_eq_iff, vcmp_eq_iff, sidcmp_eq_iff,
    PackageId.mk.injEq]

theorem pidcmp_swap (a b : PackageId) : (PackageId.cmp a b).swap = PackageId.cmp b a := by
  simp [PackageId.cmp, then_swap, cmpStr_swap, vcmp_swap, sidcmp_swap]

theorem ordering_swap_gt {x : Ordering} : x.swap = .gt ↔ x = .lt := by
  cases x <;> simp [Ordering.swap]

theorem pidcmp_trans {a b c : PackageId} (h1 : PackageId.cmp a b = .lt)
    (h2 : PackageId.cmp b c = .lt) : PackageId.cmp a c = .lt := by
  rw [PackageId.cmp, then_eq_lt] at h1 h2 ⊢
  rcases h1 with h1 | ⟨h1, h1'⟩ <;> rcases h2 with h2 | ⟨h2, h2'⟩
  · exact Or.inl (cmpStr_trans h1 h2)
  · rw [cmpStr_eq_iff] at h2
    exact Or.inl (by rwa [← h2])
  · rw [cmpStr_eq_iff] at h1
    exact Or.inl (by rwa [h1])
  · rw [cmpStr_eq_iff] at h1 h2
    refine Or.inr ⟨cmpStr_eq_iff.mpr (h1.trans h2), ?_⟩
    rw [then_eq_lt] at h1' h2' ⊢
    rcases h1' with h1' | ⟨h1', h1''⟩ <;> rcases h2' with h2' | ⟨h2', h2''⟩
    · exact Or.inl (vcmp_trans h1' h2')
    · rw [vcmp_eq_iff] at h2'
      exact Or.inl (by rwa [← h2'])
    · rw [vcmp_eq_iff] at h1'
      exact Or.inl (by rwa [h1'])
    · rw [vcmp_eq_iff] at h1' h2'
      exact Or.inr ⟨vcmp_eq_iff.mpr (h1'.trans h2'), sidcmp_trans h1'' h2''⟩

/-! ## Fingerprint suffix invariant -/

theorem mix_foldl_suffix (ts : List String) :
    ∀ m : Metadata, m.extra_filename = "-" ++ m.metadata →
      (ts.foldl Metadata.mix m).extra_filename =
        "-" ++ (ts.foldl Metadata.mix m).metadata := by
  induction ts with
  | nil => intro m h; exact h
  | cons t ts ih =>
    intro m h
    exact ih (Metadata.mix m t) rfl

/-! ## The claims -/

/-- C1 (as stated, refuted): the claim quantifies over every identity
constructed via `PackageId::new`, but `new` does not validate names, and a
name containing a space makes the encoded string fail the decoder's
pattern: `"a b"` is validly constructible, yet decoding its encoding
panics instead of returning it. -/
theorem C1_roundtrip_cex :
    PackageId.new "a b" "1.0.0" ⟨"http://example.com/a"⟩ =
      .ok ⟨"a b", ⟨1, 0, 0⟩, ⟨"http://example.com/a"⟩⟩ ∧
    decode (encode ⟨"a b", ⟨1, 0, 0⟩, ⟨"http://example.com/a"⟩⟩) ≠
      .ok ⟨"a b", ⟨1, 0, 0⟩, ⟨"http://example.com/a"⟩⟩ := by
  refine ⟨rfl, by decide⟩

/-- C1 (amended): for every identity constructed via `PackageId::new` whose
name is non-empty and contains no space and whose origin URL is non-empty
and contains no `')'`, decoding the encoded canonical string yields the
identity back: `decode (encode x) = ok x`. -/
theorem C1_roundtrip_amended (name raw : String) (sid : SourceId) (p : PackageId)
    (hmk : PackageId.new name raw sid = .ok p)
    (hn : name.data ≠ []) (hns : ∀ c ∈ name.data, c ≠ ' ')
    (hu : sid.url.data ≠ []) (hup : ∀ c ∈ sid.url.data, c ≠ ')') :
    decode (encode p) = .ok p := by
  unfold PackageId.new at hmk
  cases hv : Version.parse raw with
  | none =>
    rw [hv] at hmk
    exact absurd hmk (by simp)
  | some v =>
    rw [hv] at hmk
    simp only [Except.ok.injEq] at hmk
    subst hmk
    exact decode_encode_aux _ hn hns hu hup

/-- C1 witness: the round-trip theorem applied at a concrete identity. -/
theorem C1_roundtrip_witness :
    decode (encode ⟨"foo", ⟨1, 2, 3⟩, ⟨"http://example.com/a"⟩⟩) =
      .ok ⟨"foo", ⟨1, 2, 3⟩, ⟨"http://example.com/a"⟩⟩ :=
  C1_roundtrip_amended "foo" "1.2.3" ⟨"http://example.com/a"⟩
    ⟨"foo", ⟨1, 2, 3⟩, ⟨"http://example.com/a"⟩⟩ rfl
    (by decide) (by decide) (by decide) (by decide)

/-- C2: the decoder's behaviour at the three malformed inputs of the claim.
The code does fail on each of them, but by aborting (the `expect` calls),
not by surfacing an error to the caller: each input hits a `panic`
outcome, `"invalid serialized PackageId"` for the two grammar mismatches
and `"invalid version"` for the bad version token. -/
theorem C2_decode_aborts :
    decode "foo1.0.0(url)" = .panic "invalid serialized PackageId" ∧
    decode "foo 1.0 (url)" = .panic "invalid version" ∧
    decode "foo 1.0.0 url" = .panic "invalid serialized PackageId" := by
  refine ⟨by decide, by decide, by decide⟩

/-- C3: equal identities hash equally, and the hash depends only on the
triple `(name, version canonical string, origin)` — identities agreeing on
the name, on the version's canonical string form, and on the origin get
the same hash. -/
theorem C3_hash_consistency :
    (∀ a b : PackageId, a = b → PackageId.hash a = PackageId.hash b) ∧
    (∀ a b : PackageId, a.name = b.name → a.version.str = b.version.str →
      a.source_id = b.source_id → PackageId.hash a = PackageId.hash b) := by
  constructor
  · intro a b h
    rw [h]
  · intro a b h1 h2 h3
    unfold PackageId.hash
    rw [h1, h2, h3]

/-- C4: the ordering on identities is a total order (equality, asymmetry
and transitivity of the three-way comparison), lexicographic by
`(name, version, origin)` with name precedence, the version compared
numerically (not as a string), and the spec's example chain holds. -/
theorem C4_order_total_lex :
    (∀ a b : PackageId, PackageId.cmp a b = .eq ↔ a = b) ∧
    (∀ a b : PackageId, PackageId.cmp a b = .lt ↔ PackageId.cmp b a = .gt) ∧
    (∀ a b c : PackageId, PackageId.cmp a b = .lt → PackageId.cmp b c = .lt →
      PackageId.cmp a c = .lt) ∧
    (∀ a b : PackageId, cmpStr a.name b.name = .lt → PackageId.cmp a b = .lt) ∧
    (∀ a b : PackageId, a.name = b.name →
      Version.cmp a.version b.version = .lt → PackageId.cmp a b = .lt) ∧
    (∀ a b : PackageId, a.name = b.name → a.version = b.version →
      PackageId.cmp a b = SourceId.cmp a.source_id b.source_id) ∧
    (∀ a b : Version, Version.cmp a b = .lt ↔
      (a.major < b.major ∨ (a.major = b.major ∧
        (a.minor < b.minor ∨ (a.minor = b.minor ∧ a.patch < b.patch))))) ∧
    PackageId.cmp ⟨"foo", ⟨1, 0, 0⟩, ⟨"http://example.com/a"⟩⟩
      ⟨"foo", ⟨1, 1, 0⟩, ⟨"http://example.com/a"⟩⟩ = .lt ∧
    PackageId.cmp ⟨"foo", ⟨1, 1, 0⟩, ⟨"http://example.com/a"⟩⟩
      ⟨"foo", ⟨1, 1, 0⟩, ⟨"http://example.com/b"⟩⟩ = .lt ∧
    (Version.cmp ⟨1, 9, 0⟩ ⟨1, 10, 0⟩ = .lt ∧ cmpStr "1.9.0" "1.10.0" = .gt) := by
  refine ⟨fun a b => pidcmp_eq_iff, ?_, fun a b c => pidcmp_trans, ?_, ?_, ?_,
    fun a b => vcmp_lt_iff, by decide, by decide, by decide, by decide⟩
  · intro a b
    rw [← pidcmp_swap a b, ordering_swap_gt]
  · intro a b h
    rw [PackageId.cmp, then_eq_lt]
    exact Or.inl h
  · intro a b h hv
    rw [PackageId.cmp, then_eq_lt]
    exact Or.inr ⟨cmpStr_eq_iff.mpr h, then_eq_lt.mpr (Or.inl hv)⟩
  · intro a b h1 h2
    rw [PackageId.cmp, cmpStr_eq_iff.mpr h1, vcmp_eq_iff.mpr h2]
    rfl

/-- C5: construction fails with `InvalidVersion` carrying the raw string
exactly when the raw version does not parse, the error kind is flagged
user-facing (`is_human`), and the spec's concrete cases behave as
claimed. -/
theorem C5_construct_validation :
    (∀ (name raw : String) (sid : SourceId), Version.parse raw = none →
      PackageId.new name raw sid = .error (.InvalidVersion raw)) ∧
    (∀ (name raw : String) (sid : SourceId) (v : Version),
      Version.parse raw = some v → PackageId.new name raw sid = .ok ⟨name, v, sid⟩) ∧
    (∀ e : PackageIdError, e.is_human = true) ∧
    PackageId.new "foo" "1.0" ⟨CENTRAL_REPO⟩ = .error (.InvalidVersion "1.0") ∧
    PackageId.new "foo" "1" ⟨CENTRAL_REPO⟩ = .error (.InvalidVersion "1") ∧
    PackageId.new "foo" "" ⟨CENTRAL_REPO⟩ = .error (.InvalidVersion "") ∧
    PackageId.new "foo" "1.0.0" ⟨CENTRAL_REPO⟩ =
      .ok ⟨"foo", ⟨1, 0, 0⟩, ⟨CENTRAL_REPO⟩⟩ := by
  refine ⟨?_, ?_, fun e => rfl, rfl, rfl, rfl, rfl⟩
  · intro name raw sid h
    unfold PackageId.new
    rw [h]
  · intro name raw sid v h
    unfold PackageId.new
    rw [h]

/-- C6: display renders `"<name> v<version>"`, appending
`" (<origin-display>)"` exactly when the origin's display string is not the
central-registry constant, with the spec's two concrete cases. -/
theorem C6_display_format :
    (∀ p : PackageId, p.source_id.showStr = CENTRAL_REPO →
      PackageId.show p = p.name ++ " v" ++ p.version.str) ∧
    (∀ p : PackageId, p.source_id.showStr ≠ CENTRAL_REPO →
      PackageId.show p =
        p.name ++ " v" ++ p.version.str ++ " (" ++ p.source_id.showStr ++ ")") ∧
    PackageId.show ⟨"foo", ⟨1, 0, 0⟩, ⟨CENTRAL_REPO⟩⟩ = "foo v1.0.0" ∧
    PackageId.show ⟨"foo", ⟨1, 0, 0⟩, ⟨"http://example.com/a"⟩⟩ =
      "foo v1.0.0 (http://example.com/a)" := by
  refine ⟨?_, ?_, by decide, by decide⟩
  · intro p h
    unfold PackageId.show
    simp [h]
  · intro p h
    unfold PackageId.show
    simp [h]

/-- C7: the generated fingerprint's digest is the short hash of
`(name, version canonical string, origin)`, its suffix is `"-"` followed by
that digest, and generation is deterministic. -/
theorem C7_generate_metadata :
    (∀ p : PackageId, (PackageId.generate_metadata p).metadata =
      short_hash [p.name, p.version.str, p.source_id.url]) ∧
    (∀ p : PackageId, (PackageId.generate_metadata p).extra_filename =
      "-" ++ (PackageId.generate_metadata p).metadata) ∧
    (∀ p q : PackageId, p = q →
      PackageId.generate_metadata p = PackageId.generate_metadata q) := by
  refine ⟨fun p => rfl, fun p => rfl, fun p q h => by rw [h]⟩

set_option maxRecDepth 100000 in
/-- C8: mixing replaces the digest with the hash of
`(previous_digest, extra)` and the suffix with `"-"` plus the new digest;
the same mix sequence on equal fingerprints gives equal results; and
mixing is order-sensitive: swapping two mixed inputs changes the result at
a concrete fingerprint. -/
theorem C8_mix :
    (∀ (m : Metadata) (t : String),
      (Metadata.mix m t).metadata = short_hash [m.metadata, t]) ∧
    (∀ (m : Metadata) (t : String),
      (Metadata.mix m t).extra_filename = "-" ++ short_hash [m.metadata, t]) ∧
    (∀ (m₁ m₂ : Metadata) (ts : List String), m₁ = m₂ →
      ts.foldl Metadata.mix m₁ = ts.foldl Metadata.mix m₂) ∧
    Metadata.mix (Metadata.mix
        (PackageId.generate_metadata ⟨"foo", ⟨1, 0, 0⟩, ⟨CENTRAL_REPO⟩⟩) "A") "B" ≠
      Metadata.mix (Metadata.mix
        (PackageId.generate_metadata ⟨"foo", ⟨1, 0, 0⟩, ⟨CENTRAL_REPO⟩⟩) "B") "A" := by
  refine ⟨fun m t => rfl, fun m t => rfl, fun m₁ m₂ ts h => by rw [h], by decide⟩

/-- C9: construction never validates the name — any name (empty, with
spaces) is accepted whenever the raw version parses — and no
`InvalidNamespace` error is ever produced by `new`. -/
theorem C9_no_name_validation :
    (∀ (name raw : String) (sid : SourceId) (v : Version),
      Version.parse raw = some v → PackageId.new name raw sid = .ok ⟨name, v, sid⟩) ∧
    (∀ (name raw ns : String) (sid : SourceId),
      PackageId.new name raw sid ≠ .error (.InvalidNamespace ns)) ∧
    PackageId.new "" "1.0.0" ⟨CENTRAL_REPO⟩ = .ok ⟨"", ⟨1, 0, 0⟩, ⟨CENTRAL_REPO⟩⟩ ∧
    PackageId.new "a b" "1.0.0" ⟨CENTRAL_REPO⟩ =
      .ok ⟨"a b", ⟨1, 0, 0⟩, ⟨CENTRAL_REPO⟩⟩ := by
  refine ⟨?_, ?_, rfl, rfl⟩
  · intro name raw sid v h
    unfold PackageId.new
    rw [h]
  · intro name raw ns sid
    unfold PackageId.new
    cases Version.parse raw <;> simp

/-- C10: every fingerprint produced by `generate_metadata`, after any
sequence of mixes, keeps the invariant that the filename suffix is a dash
followed by the current digest. -/
theorem C10_suffix_invariant (p : PackageId) (ts : List String) :
    (ts.foldl Metadata.mix (PackageId.generate_metadata p)).extra_filename =
      "-" ++ (ts.foldl Metadata.mix (PackageId.generate_metadata p)).metadata :=
  mix_foldl_suffix ts (PackageId.generate_metadata p) rfl

end Cargo
